import Mathlib

/-!
Verification of the TXO (Taiwan index options) data toolkit.

This file gives a shallow embedding of the data-processing core of the
repository — CSV header detection and classification
(`台灣期交所專用資料擷取器`), the robust option-chain loader
(`images/data_loader.py`), the daily open-interest aggregation and anomaly
detection (`images/txo_db_ui.py`, `images/charting.py`), the database
persistence paths (`batch_insert_options_fast`, `保存到數據庫`) and the
backtester's drawdown calculator (`images/回測程式.py`) — and proves the
specified properties about those embeddings.

Conventions: machine integers of the source are `Int`/`Nat`, Python floats
are `ℚ` (the claims under study are about exact branch and threshold
structure, not rounding), pandas frames are lists of row structures, and
SQLite tables are lists of rows (with explicit autoincrement ids where a
claim depends on them).
-/

namespace TXOProof

/-! ### Character and string primitives

Executable stand-ins for the Python string primitives the embedded code
uses.  Python's `str.lower()` lower-cases ASCII letters and leaves CJK
text unchanged (no other scripts occur in this code's data). -/

/-- `str.lower` on one character: ASCII upper-case letters are shifted by
32, everything else (digits, punctuation, CJK) is unchanged. -/
def lowerChar (c : Char) : Char :=
  if 65 ≤ c.toNat ∧ c.toNat ≤ 90 then Char.ofNat (c.toNat + 32) else c

/-- `str.lower` on a string. -/
def lowerStr (s : String) : String := ⟨s.data.map lowerChar⟩

/-! ### Anomaly-level thresholds

`charting.detect_alert_level` (src/images/charting.py lines 32-40) and the
inline level cascade of `detect_anomalies_for_date`
(src/images/txo_db_ui.py lines 487-499, thresholds `ANOM_THRESH` from
lines 36-40).  Labels: "大單" = large order, "重大布局"/"重大" = major,
"極端" = extreme. -/

/-- Embedding of `charting.detect_alert_level`: `a = abs(int(value))`,
then the `>= 1200` / `>= 800` / `>= 400` cascade. -/
def detect_alert_level (value : Int) : Option String :=
  let a := |value|
  if a ≥ 1200 then some "極端"
  else if a ≥ 800 then some "重大布局"
  else if a ≥ 400 then some "大單"
  else none

/-- `ANOM_THRESH["extreme"]` in txo_db_ui.py. -/
def anomExtreme : Int := 1200

/-- `ANOM_THRESH["major"][0]` in txo_db_ui.py. -/
def anomMajorLo : Int := 800

/-- `ANOM_THRESH["big_order"][0]` in txo_db_ui.py. -/
def anomBigOrderLo : Int := 400

/-- Embedding of the level cascade of `detect_anomalies_for_date`
(txo_db_ui.py lines 490-499): `absd = abs(int(delta))` classified against
`ANOM_THRESH`. -/
def anomaly_level (delta : Int) : Option String :=
  let absd := |delta|
  if absd ≥ anomExtreme then some "極端"
  else if absd ≥ anomMajorLo then some "重大"
  else if absd ≥ anomBigOrderLo then some "大單"
  else none

/-! ### Data-chunk classification

`_process_data_chunk_fast` (extractor lines 1123-1163): intersection
scores of the lowercased header set with fixed indicator sets, then the
options / futures / stocks cascade. -/

/-- The classification outcome of `_process_data_chunk_fast`'s score
cascade; `undetermined` stands for the fall-through to second-layer symbol
detection / asking the user. -/
inductive DataKind
  | options
  | futures
  | stocks
  | undetermined
deriving DecidableEq, Repr

/-- `option_indicators` of `_process_data_chunk_fast`. -/
def option_indicators : List String :=
  ["cp", "call/put", "買賣權", "strike", "履約價", "expiry", "到期"]

/-- `future_indicators` of `_process_data_chunk_fast`. -/
def future_indicators : List String :=
  ["settlement", "結算價", "oi", "未平倉", "留倉"]

/-- `stock_indicators` of `_process_data_chunk_fast`. -/
def stock_indicators : List String :=
  ["open", "high", "low", "close", "volume", "value",
   "成交金額", "開盤", "最高", "最低", "收盤", "成交量"]

/-- `len(column_names & indicators)` where
`column_names = set(str(col).lower() for col in cols)`: the number of
indicator keywords (each indicator list is duplicate-free) present among
the lowercased column names. -/
def indicatorScore (inds cols : List String) : Nat :=
  (inds.filter (fun k => (cols.map lowerStr).contains k)).length

/-- The classification cascade of `_process_data_chunk_fast`
(lines 1133-1163): options if option-score ≥ 2, else futures if
future-score ≥ 2 and option-score = 0, else stocks if stock-score ≥ 2 and
both other scores are 0, else fall through. -/
def classify_chunk (cols : List String) : DataKind :=
  let option_score := indicatorScore option_indicators cols
  let future_score := indicatorScore future_indicators cols
  let stock_score := indicatorScore stock_indicators cols
  if 2 ≤ option_score then .options
  else if 2 ≤ future_score ∧ option_score = 0 then .futures
  else if 2 ≤ stock_score ∧ option_score = 0 ∧ future_score = 0 then .stocks
  else .undetermined

/-! ### Further string primitives

Substring search (`kw in text`), Python `str.strip`, `str.split(sep)` for
a one-character separator (the delimiters the loader sniffs are `,`,
tab, `;`, `|`), and the character classes used by the extractor's regular
expressions. -/

/-- Does the second list occur as the initial segment of the first? -/
def listStartsWith : List Char → List Char → Bool
  | _, [] => true
  | [], _ :: _ => false
  | c :: cs, d :: ds => c == d && listStartsWith cs ds

/-- `needle in hay` on character lists (Python substring containment). -/
def hasSubstr : List Char → List Char → Bool
  | [], needle => needle.isEmpty
  | c :: cs, needle => listStartsWith (c :: cs) needle || hasSubstr cs needle

/-- Python `kw in text` on strings. -/
def containsKW (text kw : String) : Bool := hasSubstr text.data kw.data

/-- ASCII decimal digit (regex `\d`, `str.isdigit` for this data). -/
def isDigitC (c : Char) : Bool := 48 ≤ c.toNat && c.toNat ≤ 57

/-- ASCII letter (regex `[A-Za-z]`). -/
def isAlphaC (c : Char) : Bool :=
  (65 ≤ c.toNat && c.toNat ≤ 90) || (97 ≤ c.toNat && c.toNat ≤ 122)

/-- CJK unified ideograph (regex `[一-鿿]`). -/
def isCJKC (c : Char) : Bool := 0x4e00 ≤ c.toNat && c.toNat ≤ 0x9fff

/-- Whitespace as matched by regex `\s` / stripped by `str.strip`. -/
def isSpaceC (c : Char) : Bool :=
  c.toNat = 32 || c.toNat = 9 || c.toNat = 10 || c.toNat = 13
    || c.toNat = 11 || c.toNat = 12

/-- Python `str.strip()`: drop whitespace from both ends. -/
def stripC (l : List Char) : List Char :=
  ((l.dropWhile isSpaceC).reverse.dropWhile isSpaceC).reverse

/-- Python `str.split(sep)` for a one-character separator: `""` splits to
`[""]`, and consecutive separators produce empty fields. -/
def splitOnC (d : Char) : List Char → List (List Char)
  | [] => [[]]
  | c :: rest =>
    let r := splitOnC d rest
    if c == d then [] :: r
    else
      match r with
      | [] => [[c]]
      | t :: ts => (c :: t) :: ts

/-- Claim C2: for every integer open-interest delta `d`, the anomaly level
assigned from `|d|` is none when `|d| < 400`, large order ("大單") when
`400 ≤ |d| < 800`, major ("重大布局" resp. "重大") when `800 ≤ |d| < 1200`,
and extreme ("極端") when `|d| ≥ 1200`, in both `detect_alert_level` and
the `detect_anomalies_for_date` cascade; in particular 1200 is extreme and
799 is a large order. -/
theorem claim_c2_anomaly_levels : ∀ d : Int,
    (detect_alert_level d = none ↔ |d| < 400)
    ∧ (detect_alert_level d = some "大單" ↔ 400 ≤ |d| ∧ |d| < 800)
    ∧ (detect_alert_level d = some "重大布局" ↔ 800 ≤ |d| ∧ |d| < 1200)
    ∧ (detect_alert_level d = some "極端" ↔ 1200 ≤ |d|)
    ∧ (anomaly_level d = none ↔ |d| < 400)
    ∧ (anomaly_level d = some "大單" ↔ 400 ≤ |d| ∧ |d| < 800)
    ∧ (anomaly_level d = some "重大" ↔ 800 ≤ |d| ∧ |d| < 1200)
    ∧ (anomaly_level d = some "極端" ↔ 1200 ≤ |d|)
    ∧ detect_alert_level 1200 = some "極端"
    ∧ detect_alert_level 799 = some "大單"
    ∧ anomaly_level 1200 = some "極端"
    ∧ anomaly_level 799 = some "大單" := by
  intro d
  have h1 : ("極端" : String) ≠ "大單" := by decide
  have h2 : ("極端" : String) ≠ "重大布局" := by decide
  have h3 : ("重大布局" : String) ≠ "大單" := by decide
  have h4 : ("極端" : String) ≠ "重大" := by decide
  have h5 : ("重大" : String) ≠ "大單" := by decide
  unfold detect_alert_level anomaly_level anomExtreme anomMajorLo anomBigOrderLo
  dsimp only
  refine ⟨?_, ?_, ?_, ?_, ?_, ?_, ?_, ?_, by decide, by decide, by decide, by decide⟩ <;>
    (split_ifs with ha hb hc <;> simp_all <;> omega)

/-- Claim C3: the chunk classifier computes the three keyword-intersection
scores of the lowercased header set and cascades options / futures /
stocks exactly as specified; `["履約價","買賣權","到期月份"]` classifies
as options, `["open","high","low","close","volume"]` as stocks, and a
header with option-score ≥ 2 is options even when stock keywords are also
present. -/
theorem claim_c3_classification :
    (∀ cols : List String,
      (classify_chunk cols = .options ↔ 2 ≤ indicatorScore option_indicators cols)
      ∧ (classify_chunk cols = .futures ↔
          2 ≤ indicatorScore future_indicators cols
          ∧ indicatorScore option_indicators cols = 0)
      ∧ (classify_chunk cols = .stocks ↔
          2 ≤ indicatorScore stock_indicators cols
          ∧ indicatorScore option_indicators cols = 0
          ∧ indicatorScore future_indicators cols = 0))
    ∧ classify_chunk ["履約價", "買賣權", "到期月份"] = .options
    ∧ classify_chunk ["open", "high", "low", "close", "volume"] = .stocks
    ∧ classify_chunk ["履約價", "買賣權", "open", "close", "volume"] = .options := by
  refine ⟨fun cols => ?_, by decide, by decide, by decide⟩
  unfold classify_chunk
  dsimp only
  split_ifs with ha hb hc <;> simp_all <;> omega

/-! ### Header-plausibility scoring and the header-row decision

`_calculate_data_score` (extractor lines 1247-1292) and the first/second
row decision of `_process_data_chunk_fast` (lines 1088-1121). -/

/-- `stock_keywords` of `_calculate_data_score`. -/
def stock_keywords : List String :=
  ["open", "high", "low", "close", "volume", "value",
   "開盤", "最高", "最低", "收盤", "成交量", "成交金額",
   "日期", "date", "代號", "symbol", "名稱", "name"]

/-- `option_future_keywords` of `_calculate_data_score`. -/
def option_future_keywords : List String :=
  ["cp", "call", "put", "strike", "履約價", "expiry", "到期",
   "settlement", "結算價", "oi", "未平倉", "留倉"]

/-- `non_column_keywords` of `_calculate_data_score`. -/
def non_column_keywords : List String :=
  ["報告", "報表", "資料", "統計", "明細", "表", "年度", "月份",
   "公司", "股票", "證券", "交易", "市場", "行情", "投資"]

/-- `text.replace(".", "").replace(",", "").replace("-", "").isdigit()`. -/
def strippedIsDigit (t : List Char) : Bool :=
  let s := t.filter (fun c => !(c == '.' || c == ',' || c == '-'))
  !s.isEmpty && s.all isDigitC

/-- The per-text score contributions of the `_calculate_data_score` loop:
+2 for a stock keyword, +2 for an option/future keyword, +1 for a short
text without title-like words, -1 for a long text or a pure number. -/
def scoreContribution (text : String) : Int :=
  (if stock_keywords.any (fun k => containsKW text k) then 2 else 0)
  + (if option_future_keywords.any (fun k => containsKW text k) then 2 else 0)
  + (if text.data.length ≤ 12
        ∧ non_column_keywords.any (fun k => containsKW text k) = false
     then 1 else 0)
  + (if 20 < text.data.length ∨ strippedIsDigit text.data = true then -1 else 0)

/-- Embedding of `_calculate_data_score`: 0 on an empty list, otherwise
`max(0, sum of contributions)` over the lowercased texts. -/
def calculate_data_score (columns : List String) : Int :=
  if columns = [] then 0
  else max 0 (((columns.map lowerStr).map scoreContribution).sum)

/-- The header decision of `_process_data_chunk_fast` (lines 1096-1121):
the first data row is scored only when the column row scores below 3 (and
the first data row is non-empty); the column row is kept as header iff its
score is at least the (possibly skipped, hence 0) second score. -/
def header_uses_first_row (cols firstRow : List String) : Bool :=
  let score_first_row := calculate_data_score cols
  let score_second_row : Int :=
    if score_first_row < 3 ∧ firstRow ≠ [] then calculate_data_score firstRow else 0
  decide (score_second_row ≤ score_first_row)

theorem calculate_data_score_nonneg (columns : List String) :
    0 ≤ calculate_data_score columns := by
  unfold calculate_data_score
  split_ifs with h
  · exact le_refl 0
  · exact le_max_left 0 _

/-- Claim C4 counterexample: a first row `["date"]` scoring 3 is kept as
the header even though the second row `["open","high","low"]` scores 9,
because the second row is only scored when the first scores below 3; so
"first row is chosen exactly when its score is not lower than the second
row's score" fails here. -/
theorem claim_c4_counterexample :
    header_uses_first_row ["date"] ["open", "high", "low"] = true
    ∧ calculate_data_score ["date"] < calculate_data_score ["open", "high", "low"] := by
  constructor
  · decide
  · decide

/-- Claim C4 (amended): the first row is chosen as the header exactly when
its score is at least 3 (the second row is then never scored), or the
second row is empty, or the second row's score is not higher than the
first row's; only when the first row scores below 3 and strictly below the
non-empty second row is the second row used as header. -/
theorem claim_c4_header_decision : ∀ cols firstRow : List String,
    header_uses_first_row cols firstRow = true ↔
      (3 ≤ calculate_data_score cols ∨ firstRow = []
        ∨ calculate_data_score firstRow ≤ calculate_data_score cols) := by
  intro cols fr
  have h0 : 0 ≤ calculate_data_score cols := calculate_data_score_nonneg cols
  unfold header_uses_first_row
  dsimp only
  split_ifs with h
  · simp only [decide_eq_true_eq]
    constructor
    · intro hle
      exact Or.inr (Or.inr hle)
    · rintro (h3 | hfr | hle)
      · exact absurd h3 (by omega)
      · exact absurd hfr h.2
      · exact hle
  · rw [not_and_or] at h
    simp only [decide_eq_true_eq]
    constructor
    · intro _
      rcases h with h3 | hfr
      · exact Or.inl (by omega)
      · exact Or.inr (Or.inl (not_not.mp hfr))
    · intro _
      exact h0

/-! ### The robust loader's header-row search

`find_header_row` (src/images/data_loader.py lines 60-67). -/

/-- The required keywords of `find_header_row`. -/
def header_keywords : List String := ["交易日期", "履約", "買賣權"]

/-- Does a line, split at the delimiter and with each token stripped,
contain every required keyword in some token? -/
def lineHasKeywords (delim : Char) (ln : String) : Bool :=
  header_keywords.all fun k =>
    (splitOnC delim ln.data).any fun t => hasSubstr (stripC t) k.data

/-- The `for i, ln in enumerate(lines[:10])` loop body of
`find_header_row`: return the current index on a keyword hit, else 0 after
the loop. -/
def find_header_row_go (delim : Char) : List String → Nat → Nat
  | [], _ => 0
  | ln :: rest, i =>
    if lineHasKeywords delim ln then i else find_header_row_go delim rest (i + 1)

/-- Embedding of `find_header_row`: scan the first 10 lines. -/
def find_header_row (lines : List String) (delim : Char) : Nat :=
  find_header_row_go delim (lines.take 10) 0

theorem find_header_row_go_of_none (delim : Char) :
    ∀ (L : List String) (i : Nat),
      (∀ x ∈ L, lineHasKeywords delim x = false) →
      find_header_row_go delim L i = 0 := by
  intro L
  induction L with
  | nil => intro i _; rfl
  | cons ln rest ih =>
    intro i hall
    unfold find_header_row_go
    rw [hall ln (List.mem_cons_self ln rest)]
    exact ih (i + 1) fun x hx => hall x (List.mem_cons_of_mem ln hx)

theorem find_header_row_go_of_found (delim : Char) (ln : String) (post : List String)
    (hln : lineHasKeywords delim ln = true) :
    ∀ (pre : List String) (i : Nat),
      (∀ x ∈ pre, lineHasKeywords delim x = false) →
      find_header_row_go delim (pre ++ ln :: post) i = i + pre.length := by
  intro pre
  induction pre with
  | nil =>
    intro i _
    simp only [List.nil_append, find_header_row_go, hln, if_true, List.length_nil,
      Nat.add_zero]
  | cons p ps ih =>
    intro i hall
    have hp : lineHasKeywords delim p = false := hall p (List.mem_cons_self p ps)
    simp only [List.cons_append, find_header_row_go, hp, Bool.false_eq_true, if_false]
    exact (ih (i + 1) fun x hx => hall x (List.mem_cons_of_mem p hx)).trans
      (by simp only [List.length_cons]; omega)

/-- Claim C7: when line 0 lacks the required keywords and line 1 has them
all, `find_header_row` selects 1, not 0; generally it returns the index of
the first of the first 10 lines whose stripped tokens contain all of
交易日期, 履約, 買賣權, and 0 when no such line exists. -/
theorem claim_c7_find_header_row :
    (∀ (d : Char) (l0 l1 : String) (rest : List String),
      lineHasKeywords d l0 = false → lineHasKeywords d l1 = true →
      find_header_row (l0 :: l1 :: rest) d = 1)
    ∧ (∀ (d : Char) (pre : List String) (ln : String) (post : List String),
      pre.length < 10 →
      (∀ x ∈ pre, lineHasKeywords d x = false) →
      lineHasKeywords d ln = true →
      find_header_row (pre ++ ln :: post) d = pre.length)
    ∧ (∀ (d : Char) (lines : List String),
      (∀ x ∈ lines.take 10, lineHasKeywords d x = false) →
      find_header_row lines d = 0) := by
  refine ⟨?_, ?_, ?_⟩
  · intro d l0 l1 rest h0 h1
    have : find_header_row (l0 :: l1 :: rest) d
        = find_header_row_go d ([l0] ++ l1 :: rest.take 8) 0 := by
      simp [find_header_row, List.take_succ_cons]
    rw [this, find_header_row_go_of_found d l1 (rest.take 8) h1 [l0] 0 ?_]
    · rfl
    · intro x hx
      rw [List.mem_singleton.mp hx]
      exact h0
  · intro d pre ln post hlen hall hln
    have hsplit : (pre ++ ln :: post).take 10
        = pre ++ ln :: post.take (10 - pre.length - 1) := by
      rw [List.take_append_eq_append_take, List.take_of_length_le (by omega)]
      have h1 : 10 - pre.length = (10 - pre.length - 1) + 1 := by omega
      rw [h1, List.take_succ_cons]
      have h2 : 10 - pre.length - 1 + 1 - 1 = 10 - pre.length - 1 := by omega
      rw [h2]
    rw [find_header_row, hsplit,
      find_header_row_go_of_found d ln (post.take (10 - pre.length - 1)) hln pre 0 hall]
    omega
  · intro d lines hall
    exact find_header_row_go_of_none d (lines.take 10) 0 hall

/-- Claim C7 witness: a concrete CSV whose line 0 is a title without the
keywords and whose line 1 is the real header gets `header_row = 1`. -/
theorem claim_c7_witness :
    find_header_row ["台灣期交所 選擇權日報表", "交易日期,契約,履約價,買賣權,未沖銷契約數"] ',' = 1 :=
  claim_c7_find_header_row.1 ',' "台灣期交所 選擇權日報表" "交易日期,契約,履約價,買賣權,未沖銷契約數" []
    (by decide) (by decide)

/-! ### Stock-symbol extraction

`_extract_symbol_from_header` (extractor lines 1174-1203) searches each
header cell with the regex `(?:\s|^)(\d{3,6}[A-Za-z]*)\s+([一-鿿]+)` and
validates the captured code with `_is_valid_tw_stock_symbol`
(lines 1229-1245).

Because the four character classes of the pattern (digits, ASCII letters,
whitespace, CJK) are pairwise disjoint, the greedy left-to-right matcher
below computes exactly the regex engine's backtracking search: no
backtracking into `\d{3,6}`, `[A-Za-z]*` or `\s+` can ever succeed after
the greedy attempt fails. -/

/-- Match `(\d{3,6}[A-Za-z]*)\s+([一-鿿]+)` at the head of the list,
returning (group 1, group 2). -/
def matchCore (l : List Char) : Option (List Char × List Char) :=
  let digits := (l.takeWhile isDigitC).take 6
  if digits.length < 3 then none
  else
    let r1 := l.drop digits.length
    let letters := r1.takeWhile isAlphaC
    let r2 := r1.drop letters.length
    let spaces := r2.takeWhile isSpaceC
    if spaces.isEmpty then none
    else
      let r3 := r2.drop spaces.length
      let cjk := r3.takeWhile isCJKC
      if cjk.isEmpty then none
      else some (digits ++ letters, cjk)

/-- Scan for a whitespace character and try the core pattern right after
it (the `\s` branch of `(?:\s|^)` at every later position). -/
def reSearchAux : List Char → Option (List Char × List Char)
  | [] => none
  | c :: rest =>
    if isSpaceC c then
      match matchCore rest with
      | some r => some r
      | none => reSearchAux rest
    else reSearchAux rest

/-- `re.search` for the full pattern: the `^` branch at position 0, then
the `\s` branch at every position (the two branches are mutually
exclusive since the core starts with a digit, so trying the `^` branch
first is the engine's leftmost match). -/
def reSearchSymbol (l : List Char) : Option (List Char × List Char) :=
  match matchCore l with
  | some r => some r
  | none => reSearchAux l

/-- `re.match(r"^\d+[A-Za-z]*$", symbol)`: a non-empty digit run followed
only by ASCII letters. -/
def symbolFormat (s : List Char) : Bool :=
  let ds := s.takeWhile isDigitC
  !ds.isEmpty && (s.drop ds.length).all isAlphaC

/-- Embedding of `_is_valid_tw_stock_symbol`: length 3-6 sanity check,
format check, then acceptance only for lengths 4, 5 and 6. -/
def is_valid_tw_stock_symbol (symbol : List Char) : Bool :=
  if symbol.length < 3 ∨ 6 < symbol.length then false
  else if symbolFormat symbol = false then false
  else if symbol.length = 4 ∨ symbol.length = 5 ∨ symbol.length = 6 then true
  else false

/-- Embedding of `_extract_symbol_from_header`: for each cell in order,
take the regex search's first match; when its code validates return
(symbol, chinese_name), otherwise move to the next cell.  The two capture
groups contain no whitespace, so the source's `.strip()` on them is the
identity. -/
def extract_symbol_from_header : List String → Option (String × String)
  | [] => none
  | col :: rest =>
    match reSearchSymbol col.data with
    | some (sym, name) =>
      if is_valid_tw_stock_symbol sym then some (⟨sym⟩, ⟨name⟩)
      else extract_symbol_from_header rest
    | none => extract_symbol_from_header rest

theorem isDigitC_eq_false_of_alpha {c : Char} (h : isAlphaC c = true) :
    isDigitC c = false := by
  simp only [isAlphaC, Bool.or_eq_true, Bool.and_eq_true, decide_eq_true_eq] at h
  rw [Bool.eq_false_iff]
  intro hc
  simp only [isDigitC, Bool.and_eq_true, decide_eq_true_eq] at hc
  omega

theorem isDigitC_eq_false_of_cjk {c : Char} (h : isCJKC c = true) :
    isDigitC c = false := by
  simp only [isCJKC, Bool.and_eq_true, decide_eq_true_eq] at h
  rw [Bool.eq_false_iff]
  intro hc
  simp only [isDigitC, Bool.and_eq_true, decide_eq_true_eq] at hc
  omega

theorem isSpaceC_eq_false_of_cjk {c : Char} (h : isCJKC c = true) :
    isSpaceC c = false := by
  simp only [isCJKC, Bool.and_eq_true, decide_eq_true_eq] at h
  rw [Bool.eq_false_iff]
  intro hc
  simp only [isSpaceC, Bool.or_eq_true, decide_eq_true_eq] at hc
  omega

theorem takeWhile_append_of_all {p : Char → Bool} :
    ∀ (xs ys : List Char), (∀ x ∈ xs, p x = true) →
      (xs ++ ys).takeWhile p = xs ++ ys.takeWhile p := by
  intro xs ys
  induction xs with
  | nil => intro _; rfl
  | cons c cs ih =>
    intro hall
    have hc : p c = true := hall c (List.mem_cons_self c cs)
    simp only [List.cons_append, List.takeWhile_cons, hc, if_true]
    rw [ih fun x hx => hall x (List.mem_cons_of_mem c hx)]

theorem takeWhile_eq_nil_of_head {p : Char → Bool} {c : Char} (cs : List Char)
    (h : p c = false) : (c :: cs).takeWhile p = [] := by
  simp [List.takeWhile_cons, h]

theorem takeWhile_eq_self_of_all {p : Char → Bool} (xs : List Char)
    (h : ∀ x ∈ xs, p x = true) : xs.takeWhile p = xs := by
  have := takeWhile_append_of_all xs [] h
  simpa using this

theorem reSearchAux_eq_none_of_no_space :
    ∀ l : List Char, (∀ c ∈ l, isSpaceC c = false) → reSearchAux l = none := by
  intro l
  induction l with
  | nil => intro _; rfl
  | cons c cs ih =>
    intro hall
    unfold reSearchAux
    rw [hall c (List.mem_cons_self c cs)]
    simp only [Bool.false_eq_true, if_false]
    exact ih fun x hx => hall x (List.mem_cons_of_mem c hx)

/-- Claim C5 counterexample: "123 台積電" fits the claimed shape (a 3-digit
code, whitespace, a CJK name) and the regex search does capture
("123", "台積電"), but `_is_valid_tw_stock_symbol` rejects length-3 codes,
so the extraction yields no match instead of the claimed
symbol "123" / name "台積電". -/
theorem claim_c5_counterexample :
    reSearchSymbol "123 台積電".data = some ("123".data, "台積電".data)
    ∧ extract_symbol_from_header ["123 台積電"] = none := by
  constructor
  · decide
  · decide

/-- Claim C5 (amended): for a cell of the form digits ++ letters ++
whitespace ++ CJK-name with 3 to 6 digits and total code length between 4
and 6, the extraction recovers the code and the name; a pure 3-character
code is rejected by the validity check (see the counterexample), and a
non-digit-leading cell such as "AB " ++ name yields no match. -/
theorem claim_c5_symbol_extraction (ds ls name : List Char)
    (hds : ∀ c ∈ ds, isDigitC c = true)
    (hdlen : 3 ≤ ds.length) (hdlen6 : ds.length ≤ 6)
    (hls : ∀ c ∈ ls, isAlphaC c = true)
    (hname : name ≠ []) (hnameC : ∀ c ∈ name, isCJKC c = true)
    (hv : 4 ≤ ds.length + ls.length) (hv6 : ds.length + ls.length ≤ 6) :
    extract_symbol_from_header [⟨ds ++ ls ++ ' ' :: name⟩]
      = some (⟨ds ++ ls⟩, ⟨name⟩)
    ∧ extract_symbol_from_header [⟨'A' :: 'B' :: ' ' :: name⟩] = none := by
  have hnodig : (ls ++ ' ' :: name).takeWhile isDigitC = [] := by
    cases ls with
    | nil => exact takeWhile_eq_nil_of_head _ (by decide)
    | cons a as =>
      exact takeWhile_eq_nil_of_head _
        (isDigitC_eq_false_of_alpha (hls a (List.mem_cons_self a as)))
  have hcore : matchCore (ds ++ (ls ++ ' ' :: name)) = some (ds ++ ls, name) := by
    have h1 : (ds ++ (ls ++ ' ' :: name)).takeWhile isDigitC = ds := by
      rw [takeWhile_append_of_all ds _ hds, hnodig, List.append_nil]
    have h2 : (ls ++ ' ' :: name).takeWhile isAlphaC = ls := by
      rw [takeWhile_append_of_all ls _ hls, takeWhile_eq_nil_of_head _ (by decide),
        List.append_nil]
    have h3 : (' ' :: name).takeWhile isSpaceC = [' '] := by
      cases name with
      | nil => decide
      | cons n ns =>
        rw [show (' ' :: n :: ns) = [' '] ++ n :: ns from rfl,
          takeWhile_append_of_all [' '] _ (by intro x hx; simp at hx; subst hx; decide),
          takeWhile_eq_nil_of_head _
            (isSpaceC_eq_false_of_cjk (hnameC n (List.mem_cons_self n ns)))]
        rfl
    unfold matchCore
    dsimp only
    rw [h1, List.take_of_length_le hdlen6, if_neg (by omega), List.drop_left, h2,
      List.drop_left, h3]
    simp only [List.isEmpty_cons, Bool.false_eq_true, if_false, List.length_singleton,
      List.drop_succ_cons, List.drop_zero]
    rw [takeWhile_eq_self_of_all name hnameC,
      if_neg (by simpa [List.isEmpty_iff] using hname)]
  have hvalid : is_valid_tw_stock_symbol (ds ++ ls) = true := by
    have hlen : (ds ++ ls).length = ds.length + ls.length := List.length_append ds ls
    have hfmt : symbolFormat (ds ++ ls) = true := by
      have h1 : (ds ++ ls).takeWhile isDigitC = ds := by
        rw [takeWhile_append_of_all ds _ hds]
        cases ls with
        | nil => simp
        | cons a as =>
          rw [takeWhile_eq_nil_of_head _
            (isDigitC_eq_false_of_alpha (hls a (List.mem_cons_self a as)))]
          simp
      unfold symbolFormat
      dsimp only
      rw [h1, List.drop_left]
      simp only [Bool.and_eq_true, Bool.not_eq_eq_eq_not, Bool.not_false, List.all_eq_true]
      constructor
      · cases ds with
        | nil => simp at hdlen
        | cons d dt => rfl
      · exact hls
    unfold is_valid_tw_stock_symbol
    rw [if_neg (by simp only [List.length_append]; omega), if_neg (by simp [hfmt]),
      if_pos (by simp only [List.length_append]; omega)]
  constructor
  · have hsearch : reSearchSymbol (ds ++ ls ++ ' ' :: name) = some (ds ++ ls, name) := by
      rw [List.append_assoc]
      unfold reSearchSymbol
      rw [hcore]
    show extract_symbol_from_header (⟨ds ++ ls ++ ' ' :: name⟩ :: []) = _
    unfold extract_symbol_from_header
    rw [show (String.mk (ds ++ ls ++ ' ' :: name)).data = ds ++ ls ++ ' ' :: name from rfl,
      hsearch]
    dsimp only
    rw [if_pos hvalid]
  · have hABcore : matchCore ('A' :: 'B' :: ' ' :: name) = none := by
      unfold matchCore
      dsimp only
      rw [takeWhile_eq_nil_of_head _ (show isDigitC 'A' = false by decide)]
      rfl
    have hnamecore : matchCore name = none := by
      unfold matchCore
      dsimp only
      cases name with
      | nil => rfl
      | cons n ns =>
        rw [takeWhile_eq_nil_of_head _
          (isDigitC_eq_false_of_cjk (hnameC n (List.mem_cons_self n ns)))]
        rfl
    have hsearch2 : reSearchSymbol ('A' :: 'B' :: ' ' :: name) = none := by
      unfold reSearchSymbol
      rw [hABcore]
      dsimp only
      unfold reSearchAux
      rw [show isSpaceC 'A' = false from by decide]
      simp only [Bool.false_eq_true, if_false]
      unfold reSearchAux
      rw [show isSpaceC 'B' = false from by decide]
      simp only [Bool.false_eq_true, if_false]
      unfold reSearchAux
      rw [show isSpaceC ' ' = true from by decide]
      simp only [if_true]
      rw [hnamecore,
        reSearchAux_eq_none_of_no_space name
          fun c hc => isSpaceC_eq_false_of_cjk (hnameC c hc)]
    show extract_symbol_from_header (⟨'A' :: 'B' :: ' ' :: name⟩ :: []) = _
    unfold extract_symbol_from_header
    rw [show (String.mk ('A' :: 'B' :: ' ' :: name)).data = 'A' :: 'B' :: ' ' :: name from rfl,
      hsearch2]
    rfl

/-- Claim C5 witness: "2330 台積電" yields symbol "2330" and name
"台積電", and "AB 台積電" yields no match. -/
theorem claim_c5_witness :
    extract_symbol_from_header ["2330 台積電"] = some ("2330", "台積電")
    ∧ extract_symbol_from_header ["AB 台積電"] = none :=
  claim_c5_symbol_extraction "2330".data [] "台積電".data
    (by decide) (by decide) (by decide) (by decide) (by decide) (by decide)
    (by decide) (by decide)

/-! ### Maximum drawdown

`calculate_max_drawdown` (src/images/回測程式.py lines 1227-1239), called
by `calculate_performance` (lines 1149-1225) on an equity curve that
always starts with the initial equity 100000.  Equity values are `ℚ`. -/

/-- The `for equity in equity_curve` loop of `calculate_max_drawdown`:
carry the running peak and the running maximum drawdown. -/
def mddLoop : ℚ → ℚ → List ℚ → ℚ
  | _, maxdd, [] => maxdd
  | peak, maxdd, e :: rest =>
    let p := if e > peak then e else peak
    let dd := (p - e) / p
    mddLoop p (if dd > maxdd then dd else maxdd) rest

/-- Embedding of `calculate_max_drawdown`: `peak = equity_curve[0]`,
`max_dd = 0`, then the loop.  (`calculate_performance` always passes a
non-empty curve; `headI` of the empty list stands for the Python
IndexError case, which the theorems exclude.) -/
def calculate_max_drawdown (curve : List ℚ) : ℚ := mddLoop curve.headI 0 curve

/-- The running-peak sequence of the loop. -/
def runningPeaks : ℚ → List ℚ → List ℚ
  | _, [] => []
  | peak, e :: rest =>
    let p := if e > peak then e else peak
    p :: runningPeaks p rest

/-- The specification's running peak at position `i`: the largest equity
value at or before position `i`, starting from the initial equity. -/
def prefixPeak (curve : List ℚ) (i : Nat) : ℚ :=
  (curve.take (i + 1)).foldl max curve.headI

theorem ite_gt_eq_max (a b : ℚ) : (if b > a then b else a) = max a b := by
  rcases le_or_lt b a with h | h
  · rw [if_neg (not_lt.mpr h), max_eq_left h]
  · rw [if_pos h, max_eq_right h.le]

theorem mddLoop_eq_foldl :
    ∀ (l : List ℚ) (peak m : ℚ),
      mddLoop peak m l
        = (List.zipWith (fun p e => (p - e) / p) (runningPeaks peak l) l).foldl max m := by
  intro l
  induction l with
  | nil => intro peak m; rfl
  | cons e rest ih =>
    intro peak m
    unfold mddLoop runningPeaks
    dsimp only
    rw [ih, List.zipWith_cons_cons, List.foldl_cons, ite_gt_eq_max]

theorem foldl_max_init_le : ∀ (l : List ℚ) (m : ℚ), m ≤ l.foldl max m := by
  intro l
  induction l with
  | nil => intro m; exact le_refl m
  | cons x xs ih =>
    intro m
    rw [List.foldl_cons]
    exact le_trans (le_max_left m x) (ih (max m x))

theorem runningPeaks_length : ∀ (l : List ℚ) (peak : ℚ),
    (runningPeaks peak l).length = l.length := by
  intro l
  induction l with
  | nil => intro _; rfl
  | cons e rest ih =>
    intro peak
    unfold runningPeaks
    dsimp only
    rw [List.length_cons, List.length_cons, ih]

theorem runningPeaks_getD :
    ∀ (l : List ℚ) (peak : ℚ) (i : Nat), i < l.length →
      (runningPeaks peak l).getD i 0 = (l.take (i + 1)).foldl max peak := by
  intro l
  induction l with
  | nil => intro peak i h; simp at h
  | cons e rest ih =>
    intro peak i h
    unfold runningPeaks
    dsimp only
    cases i with
    | zero =>
      rw [List.getD_cons_zero, List.take_succ_cons, List.take_zero, List.foldl_cons,
        List.foldl_nil, ite_gt_eq_max]
    | succ j =>
      rw [List.getD_cons_succ, List.take_succ_cons, List.foldl_cons,
        ih _ j (by simpa using h), ite_gt_eq_max]

theorem zipWith_eq_map_range (f : ℚ → ℚ → ℚ) :
    ∀ (xs ys : List ℚ), xs.length = ys.length →
      List.zipWith f xs ys
        = (List.range xs.length).map (fun i => f (xs.getD i 0) (ys.getD i 0)) := by
  intro xs
  induction xs with
  | nil => intro ys _; rfl
  | cons x xt ih =>
    intro ys hlen
    cases ys with
    | nil => simp at hlen
    | cons y yt =>
      rw [List.zipWith_cons_cons, List.length_cons, List.range_succ_eq_map,
        List.map_cons, List.map_map]
      rw [ih yt (by simpa using hlen)]
      simp only [List.getD_cons_zero, List.getD_cons_succ, Function.comp_def]

/-- Claim C9: for every (non-empty) equity curve, the reported maximum
drawdown equals the maximum over curve positions of
`(running_peak - equity) / running_peak`, where the running peak at a
position is the largest equity seen at or before it starting from the
initial equity; and the result is always nonnegative. -/
theorem claim_c9_max_drawdown : ∀ (a : ℚ) (rest : List ℚ),
    calculate_max_drawdown (a :: rest)
      = ((List.range (a :: rest).length).map
          (fun i => (prefixPeak (a :: rest) i - (a :: rest).getD i 0)
            / prefixPeak (a :: rest) i)).foldl max 0
    ∧ 0 ≤ calculate_max_drawdown (a :: rest) := by
  intro a rest
  constructor
  · rw [calculate_max_drawdown, mddLoop_eq_foldl,
      zipWith_eq_map_range _ _ _ (runningPeaks_length (a :: rest) (a :: rest).headI),
      runningPeaks_length]
    congr 1
    apply List.map_congr_left
    intro i hi
    rw [runningPeaks_getD _ _ i (List.mem_range.mp hi)]
    rfl
  · rw [calculate_max_drawdown, mddLoop_eq_foldl]
    exact foldl_max_init_le _ 0

/-! ### Database persistence

Two distinct persistence paths exist.  `batch_insert_options_fast`
(extractor lines 139-189) runs `INSERT OR IGNORE` against `options_raw`,
whose natural key is `UNIQUE(trade_date, product, expiry, strike, cp,
session)` (line 63).  `保存到數據庫` (src/images/txo_downloader.py lines
289-312) instead executes `DELETE FROM txo_options WHERE trade_date = ?`
and then appends the frame; `txo_options` rows carry an `AUTOINCREMENT`
id (line 37), so the re-inserted rows are new rows. -/

/-- A row of `options_raw` (payload fields beyond the natural key are
`volume`, `oi`, `raw_oi_text`, `load_file`). -/
structure ORow where
  product : String
  trade_date : String
  expiry : String
  strike : ℚ
  cp : String
  volume : Int
  oi : Option Int
  raw_oi_text : Option String
  session : String
  load_file : Option String
deriving DecidableEq, Repr

/-- The natural key `UNIQUE(trade_date, product, expiry, strike, cp,
session)` of `options_raw`. -/
def okey (r : ORow) : String × String × String × ℚ × String × String :=
  (r.trade_date, r.product, r.expiry, r.strike, r.cp, r.session)

/-- One `INSERT OR IGNORE` statement: drop the tuple when its natural key
already exists, else append it. -/
def insert_or_ignore (table : List ORow) (r : ORow) : List ORow :=
  if table.any (fun x => decide (okey x = okey r)) then table else table ++ [r]

/-- Embedding of `batch_insert_options_fast`: `executemany` of
`INSERT OR IGNORE` over the batch, in order. -/
def batch_insert_options_fast (table : List ORow) (batch : List ORow) : List ORow :=
  batch.foldl insert_or_ignore table

/-- A table with SQLite `AUTOINCREMENT` ids: rows paired with their id,
plus the next id to assign. -/
structure DBState (ρ : Type) where
  rows : List (Nat × ρ)
  nextId : Nat
deriving DecidableEq, Repr

/-- `date.replace("/", "-")`. -/
def normDate (s : String) : String :=
  ⟨s.data.map fun c => if c = '/' then '-' else c⟩

/-- Assign consecutive autoincrement ids to appended rows. -/
def assignIds {ρ : Type} (n : Nat) : List ρ → List (Nat × ρ)
  | [] => []
  | r :: rest => (n, r) :: assignIds (n + 1) rest

/-- Embedding of `保存到數據庫`: delete every row of the target date, then
append the frame's rows (`df.to_sql(..., if_exists="append")`), which
receive fresh autoincrement ids. -/
def save_to_db {ρ : Type} (td : ρ → String) (st : DBState ρ) (df : List ρ)
    (date : String) : DBState ρ :=
  let d := normDate date
  { rows := st.rows.filter (fun p => !(td p.2 == d)) ++ assignIds st.nextId df
    nextId := st.nextId + df.length }

theorem insert_or_ignore_of_mem {table : List ORow} {r : ORow}
    (h : ∃ x ∈ table, okey x = okey r) : insert_or_ignore table r = table := by
  unfold insert_or_ignore
  rw [if_pos]
  rw [List.any_eq_true]
  obtain ⟨x, hx, hk⟩ := h
  exact ⟨x, hx, by rw [decide_eq_true_eq]; exact hk⟩

theorem insert_or_ignore_append (table : List ORow) (r : ORow) :
    ∃ u, insert_or_ignore table r = table ++ u := by
  unfold insert_or_ignore
  split_ifs
  · exact ⟨[], by rw [List.append_nil]⟩
  · exact ⟨[r], rfl⟩

theorem batch_insert_append :
    ∀ (batch : List ORow) (table : List ORow),
      ∃ u, batch_insert_options_fast table batch = table ++ u := by
  intro batch
  induction batch with
  | nil => intro table; exact ⟨[], by rw [List.append_nil]; rfl⟩
  | cons r rest ih =>
    intro table
    obtain ⟨u1, hu1⟩ := insert_or_ignore_append table r
    obtain ⟨u2, hu2⟩ := ih (insert_or_ignore table r)
    refine ⟨u1 ++ u2, ?_⟩
    show batch_insert_options_fast (insert_or_ignore table r) rest = table ++ (u1 ++ u2)
    rw [hu2, hu1, List.append_assoc]

theorem batch_insert_key_present :
    ∀ (batch : List ORow) (table : List ORow) (r : ORow), r ∈ batch →
      ∃ x ∈ batch_insert_options_fast table batch, okey x = okey r := by
  intro batch
  induction batch with
  | nil => intro table r hr; simp at hr
  | cons b rest ih =>
    intro table r hr
    rcases List.mem_cons.mp hr with rfl | hr2
    · obtain ⟨u2, hu2⟩ :=
        batch_insert_append rest (insert_or_ignore table r)
      show ∃ x ∈ batch_insert_options_fast (insert_or_ignore table r) rest, okey x = okey r
      rw [hu2]
      unfold insert_or_ignore
      split_ifs with hmem
      · rw [List.any_eq_true] at hmem
        obtain ⟨x, hx, hk⟩ := hmem
        exact ⟨x, List.mem_append_left _ hx, decide_eq_true_eq.mp hk⟩
      · exact ⟨r, List.mem_append_left _ (List.mem_append_right _ (List.mem_singleton_self r)),
          rfl⟩
    · exact ih (insert_or_ignore table b) r hr2

theorem batch_insert_of_all_present :
    ∀ (batch : List ORow) (table : List ORow),
      (∀ r ∈ batch, ∃ x ∈ table, okey x = okey r) →
      batch_insert_options_fast table batch = table := by
  intro batch
  induction batch with
  | nil => intro table _; rfl
  | cons b rest ih =>
    intro table hall
    have hb : insert_or_ignore table b = table :=
      insert_or_ignore_of_mem (hall b (List.mem_cons_self b rest))
    show batch_insert_options_fast (insert_or_ignore table b) rest = table
    rw [hb]
    exact ih table fun r hr => hall r (List.mem_cons_of_mem b hr)

theorem assignIds_map_snd {ρ : Type} : ∀ (df : List ρ) (n : Nat),
    (assignIds n df).map Prod.snd = df := by
  intro df
  induction df with
  | nil => intro _; rfl
  | cons r rest ih =>
    intro n
    unfold assignIds
    rw [List.map_cons, ih]

theorem assignIds_length {ρ : Type} : ∀ (df : List ρ) (n : Nat),
    (assignIds n df).length = df.length := by
  intro df
  induction df with
  | nil => intro _; rfl
  | cons r rest ih =>
    intro n
    unfold assignIds
    rw [List.length_cons, List.length_cons, ih]

theorem assignIds_filter_none {ρ : Type} (td : ρ → String) (d : String) :
    ∀ (df : List ρ), (∀ r ∈ df, td r = d) →
      ∀ n : Nat, (assignIds n df).filter (fun p => !(td p.2 == d)) = [] := by
  intro df
  induction df with
  | nil => intro _ _; rfl
  | cons r rest ih =>
    intro hall n
    unfold assignIds
    rw [List.filter_cons]
    have hr : td r = d := hall r (List.mem_cons_self r rest)
    rw [if_neg (by simp [hr])]
    exact ih (fun x hx => hall x (List.mem_cons_of_mem r hx)) (n + 1)

/-- Claim C6 counterexample: re-importing through the downloader's
`保存到數據庫` does not leave the table unchanged and does remove the
existing row.  A table holding the one record of date 2024-01-02 under id
1, re-fed the very same record, ends up with that row deleted and
re-inserted under id 2. -/
theorem claim_c6_counterexample :
    save_to_db id ⟨[(1, "2024-01-02")], 2⟩ ["2024-01-02"] "2024/01/02"
        ≠ ⟨[(1, "2024-01-02")], 2⟩
    ∧ (1, "2024-01-02") ∉ (save_to_db id ⟨[(1, "2024-01-02")], 2⟩
        ["2024-01-02"] "2024/01/02").rows := by
  constructor
  · decide
  · decide

/-- Claim C6 (amended): the extractor's batch insert is insert-or-ignore
on the natural key — re-running the same batch changes nothing and
existing rows are never overwritten or removed; the downloader's save
instead deletes all rows of the target date before appending, so saving
the same frame twice leaves row count and row contents unchanged, but it
does replace existing rows (see the counterexample). -/
theorem claim_c6_persistence :
    (∀ (table batch : List ORow),
      batch_insert_options_fast (batch_insert_options_fast table batch) batch
        = batch_insert_options_fast table batch)
    ∧ (∀ (table batch : List ORow),
      ∃ u, batch_insert_options_fast table batch = table ++ u)
    ∧ (∀ (ρ : Type) (td : ρ → String) (st : DBState ρ) (df : List ρ) (date : String),
      (∀ r ∈ df, td r = normDate date) →
      (save_to_db td (save_to_db td st df date) df date).rows.length
          = (save_to_db td st df date).rows.length
      ∧ (save_to_db td (save_to_db td st df date) df date).rows.map Prod.snd
          = (save_to_db td st df date).rows.map Prod.snd) := by
  refine ⟨?_, fun table batch => batch_insert_append batch table, ?_⟩
  · intro table batch
    apply batch_insert_of_all_present
    intro r hr
    exact batch_insert_key_present batch table r hr
  · intro ρ td st df date hdf
    have hfilter : ∀ n : Nat,
        (assignIds n df).filter (fun p => !(td p.2 == normDate date)) = [] :=
      assignIds_filter_none td (normDate date) df hdf
    have hkept :
        (st.rows.filter (fun p => !(td p.2 == normDate date))).filter
            (fun p => !(td p.2 == normDate date))
          = st.rows.filter (fun p => !(td p.2 == normDate date)) := by
      rw [List.filter_filter]
      exact List.filter_congr fun a _ => Bool.and_self _
    unfold save_to_db
    dsimp only
    rw [List.filter_append, hfilter, hkept, List.append_nil]
    constructor
    · rw [List.length_append, List.length_append, assignIds_length, assignIds_length]
    · rw [List.map_append, List.map_append, assignIds_map_snd, assignIds_map_snd]

/-- Claim C6 witness: saving a concrete one-row frame twice leaves the
row contents (ignoring autoincrement ids) of the table unchanged. -/
theorem claim_c6_witness :
    (save_to_db id (save_to_db id ⟨[(1, "2024-01-02")], 2⟩ ["2024-01-02"] "2024/01/02")
        ["2024-01-02"] "2024/01/02").rows.map Prod.snd
      = (save_to_db id ⟨[(1, "2024-01-02")], 2⟩ ["2024-01-02"] "2024/01/02").rows.map
          Prod.snd :=
  (claim_c6_persistence.2.2 String id ⟨[(1, "2024-01-02")], 2⟩ ["2024-01-02"] "2024/01/02"
    (by decide)).2

/-! ### The relative-anomaly flag

`detect_anomalies_for_date` (txo_db_ui.py lines 500-505): for each row of
the day, take the same contract's history strictly before the day, sort it
by date descending, keep the first 5 rows, average their `|delta_1|`, and
raise `rel_flag` when that mean is positive and `|delta|` exceeds three
times it. -/

/-- A row of the aggregated frame as consumed by the anomaly scan:
(交易日期, 履約價, 買賣權, delta_1). -/
structure HRow where
  trade_date : Int
  strike : Int
  cp : String
  delta_1 : Int
deriving DecidableEq, Repr

/-- `sort_values("交易日期", ascending=False)` comparison. -/
def dateDesc (a b : HRow) : Prop := b.trade_date ≤ a.trade_date

instance : DecidableRel dateDesc :=
  fun a b => inferInstanceAs (Decidable (b.trade_date ≤ a.trade_date))

instance : IsTotal HRow dateDesc := ⟨fun a b => le_total b.trade_date a.trade_date⟩

instance : IsTrans HRow dateDesc := ⟨fun _ _ _ hab hbc => le_trans hbc hab⟩

/-- `hist[hist["交易日期"] < r["交易日期"]]` after the same-contract
filter: the contract's rows strictly before the current date. -/
def histBefore (all_agg : List HRow) (r : HRow) : List HRow :=
  (all_agg.filter fun q => q.strike == r.strike && q.cp == r.cp).filter
    fun q => decide (q.trade_date < r.trade_date)

/-- `.sort_values("交易日期", ascending=False).head(5)`.  The rows of one
contract have pairwise distinct dates, so any descending sort produces the
same list; insertion sort is used as the executable sort. -/
def hist_recent (all_agg : List HRow) (r : HRow) : List HRow :=
  (List.insertionSort dateDesc (histBefore all_agg r)).take 5

/-- `hist_recent["delta_1"].abs().mean() if not hist_recent.empty else
0.0`. -/
def mean_recent (all_agg : List HRow) (r : HRow) : ℚ :=
  let h := hist_recent all_agg r
  if h.isEmpty then 0
  else (h.map fun q => |(q.delta_1 : ℚ)|).sum / h.length

/-- `rel_flag = mean_recent > 0 and absd > mean_recent * 3`. -/
def rel_flag (all_agg : List HRow) (r : HRow) : Bool :=
  decide (0 < mean_recent all_agg r)
    && decide (mean_recent all_agg r * 3 < |(r.delta_1 : ℚ)|)

/-- The number of strictly-later rows of `S`: the rank of `q` in a
date-descending ordering of `S`. -/
def rankBefore (S : List HRow) (q : HRow) : Nat :=
  S.countP fun p => decide (q.trade_date < p.trade_date)

/-- The specification's "last 5 sessions": the rows of rank below 5, i.e.
the rows with the 5 largest dates. -/
def lastFive (S : List HRow) : List HRow :=
  S.filter fun q => decide (rankBefore S q < 5)

/-- The specification's mean `|delta_1|` over the last 5 sessions. -/
def spec_mean (all_agg : List HRow) (r : HRow) : ℚ :=
  let T := lastFive (histBefore all_agg r)
  if T.isEmpty then 0
  else (T.map fun q => |(q.delta_1 : ℚ)|).sum / T.length

theorem take_eq_filter_rank :
    ∀ (T : List HRow) (n : Nat),
      T.Pairwise (fun a b => b.trade_date < a.trade_date) →
      T.take n
        = T.filter fun q =>
            decide ((T.countP fun p => decide (q.trade_date < p.trade_date)) < n) := by
  intro T
  induction T with
  | nil => intro n _; simp
  | cons a t ih =>
    intro n hp
    have ha : ∀ b ∈ t, b.trade_date < a.trade_date :=
      fun b hb => List.rel_of_pairwise_cons hp hb
    have hcountA :
        ((a :: t).countP fun p => decide (a.trade_date < p.trade_date)) = 0 := by
      rw [List.countP_eq_zero]
      intro p hp2
      rcases List.mem_cons.mp hp2 with rfl | hp3
      · simp
      · simp only [decide_eq_true_eq]
        exact not_lt.mpr (ha p hp3).le
    have hcountQ : ∀ q ∈ t,
        ((a :: t).countP fun p => decide (q.trade_date < p.trade_date))
          = (t.countP fun p => decide (q.trade_date < p.trade_date)) + 1 := by
      intro q hq
      rw [List.countP_cons]
      rw [if_pos (by simpa using ha q hq)]
    cases n with
    | zero =>
      rw [List.take_zero]
      symm
      rw [List.filter_eq_nil_iff]
      intro q _
      simp
    | succ m =>
      rw [List.take_succ_cons, List.filter_cons, if_pos (by rw [hcountA]; simp)]
      congr 1
      rw [List.filter_congr (fun q hq => ?_), ih m hp.of_cons]
      rw [hcountQ q hq]
      simp only [decide_eq_decide]
      omega

theorem mean_recent_eq_spec (all_agg : List HRow) (r : HRow)
    (hnd : (histBefore all_agg r).Pairwise
      fun a b => a.trade_date ≠ b.trade_date) :
    mean_recent all_agg r = spec_mean all_agg r := by
  have hperm : List.Perm (List.insertionSort dateDesc (histBefore all_agg r))
      (histBefore all_agg r) :=
    List.perm_insertionSort dateDesc (histBefore all_agg r)
  have hsorted : (List.insertionSort dateDesc (histBefore all_agg r)).Pairwise dateDesc :=
    List.sorted_insertionSort dateDesc (histBefore all_agg r)
  have hsymm : ∀ {x y : HRow},
      x.trade_date ≠ y.trade_date → y.trade_date ≠ x.trade_date :=
    fun h => h.symm
  have hndT : (List.insertionSort dateDesc (histBefore all_agg r)).Pairwise
      (fun a b => a.trade_date ≠ b.trade_date) := by
    rw [List.Perm.pairwise_iff hsymm hperm]
    exact hnd
  have hstrict : (List.insertionSort dateDesc (histBefore all_agg r)).Pairwise
      (fun a b => b.trade_date < a.trade_date) :=
    (hsorted.and hndT).imp fun h => lt_of_le_of_ne h.1 (Ne.symm h.2)
  have htake := take_eq_filter_rank _ 5 hstrict
  have hcount : ∀ q : HRow,
      ((List.insertionSort dateDesc (histBefore all_agg r)).countP
          fun p => decide (q.trade_date < p.trade_date))
        = rankBefore (histBefore all_agg r) q := fun q => hperm.countP_eq _
  have hfilter : (List.insertionSort dateDesc (histBefore all_agg r)).filter
        (fun q => decide ((List.insertionSort dateDesc
            (histBefore all_agg r)).countP
              (fun p => decide (q.trade_date < p.trade_date)) < 5))
      = (List.insertionSort dateDesc (histBefore all_agg r)).filter
          (fun q => decide (rankBefore (histBefore all_agg r) q < 5)) :=
    List.filter_congr fun q _ => by rw [hcount q]
  have hpermFive : List.Perm (hist_recent all_agg r)
      (lastFive (histBefore all_agg r)) := by
    unfold hist_recent lastFive
    rw [htake, hfilter]
    exact hperm.filter _
  unfold mean_recent spec_mean
  dsimp only
  have hempty : (hist_recent all_agg r).isEmpty
      = (lastFive (histBefore all_agg r)).isEmpty := by
    have hlen := hpermFive.length_eq
    cases h1 : hist_recent all_agg r <;> cases h2 : lastFive (histBefore all_agg r) <;>
      simp_all
  rw [hempty, (hpermFive.map fun q => |(q.delta_1 : ℚ)|).sum_eq, hpermFive.length_eq]

/-- Claim C8 counterexample: a contract whose one prior session has
`delta_1 = 0` and whose current delta is 100 satisfies the claimed firing
condition `|delta| > 3 × mean` (100 > 0), yet `rel_flag` is false because
the code additionally requires `mean_recent > 0`. -/
theorem claim_c8_counterexample :
    rel_flag [⟨1, 100, "C", 0⟩, ⟨2, 100, "C", 100⟩] ⟨2, 100, "C", 100⟩ = false
    ∧ spec_mean [⟨1, 100, "C", 0⟩, ⟨2, 100, "C", 100⟩] ⟨2, 100, "C", 100⟩ * 3
        < |(((⟨2, 100, "C", 100⟩ : HRow)).delta_1 : ℚ)| := by
  have hm : mean_recent [⟨1, 100, "C", 0⟩, ⟨2, 100, "C", 100⟩] ⟨2, 100, "C", 100⟩ = 0 := by
    simp [mean_recent, hist_recent, histBefore]
  have hs : spec_mean [⟨1, 100, "C", 0⟩, ⟨2, 100, "C", 100⟩] ⟨2, 100, "C", 100⟩ = 0 := by
    simp [spec_mean, lastFive, rankBefore, histBefore]
  constructor
  · simp [rel_flag, hm]
  · rw [hs]
    norm_num

/-- Claim C8 (amended): on a day's aggregate whose per-contract history
has pairwise-distinct dates, the relative-anomaly flag fires exactly when
the mean `|delta_1|` of the same contract's last 5 sessions strictly
before the day (the 5 of largest date) is positive and `|delta_1|`
exceeds 3 times that mean. -/
theorem claim_c8_relative_anomaly : ∀ (all_agg : List HRow) (r : HRow),
    (histBefore all_agg r).Pairwise (fun a b => a.trade_date ≠ b.trade_date) →
    (rel_flag all_agg r = true ↔
      0 < spec_mean all_agg r
        ∧ spec_mean all_agg r * 3 < |(r.delta_1 : ℚ)|) := by
  intro all_agg r hnd
  unfold rel_flag
  rw [mean_recent_eq_spec all_agg r hnd]
  simp only [Bool.and_eq_true, decide_eq_true_eq]

/-- Claim C8 witness: with one prior session of `|delta_1| = 500` and a
current delta of 2000, the flag fires. -/
theorem claim_c8_witness :
    rel_flag [⟨1, 100, "C", 500⟩, ⟨2, 100, "C", 2000⟩] ⟨2, 100, "C", 2000⟩ = true := by
  have hs : spec_mean [⟨1, 100, "C", 500⟩, ⟨2, 100, "C", 2000⟩] ⟨2, 100, "C", 2000⟩
      = 500 := by
    simp [spec_mean, lastFive, rankBefore, histBefore]
  exact (claim_c8_relative_anomaly [⟨1, 100, "C", 500⟩, ⟨2, 100, "C", 2000⟩]
    ⟨2, 100, "C", 2000⟩ (by decide)).mpr ⟨by rw [hs]; norm_num, by rw [hs]; norm_num⟩

/-! ### Open-interest aggregation and session deltas

`load_and_process` (src/images/data_loader.py lines 216-226): group the
cleaned rows by (date, strike, call/put) summing OI, sort by
(strike, call/put, date), then within each (strike, call/put) contract
take `shift(1)`/`shift(2)` of OI with `fillna(0)` and set
`delta_1 = OI - OI_prev1`, `delta_2 = OI - OI_prev2`.
(`aggregate_daily_from_df` of txo_db_ui.py lines 453-460 differs only in
sorting by (date, strike, call/put); both orders list each contract's
sessions by ascending date, which is all the shift uses.)

After grouping, each (date, strike, call/put) key occurs exactly once, so
the sort key is strictly totally ordered on the rows and every correct
sort produces the same list; insertion sort is the executable stand-in for
pandas' `sort_values`. -/

/-- A cleaned input row: (Date, Strike, CP, OI).  Dates and strikes are
integers after cleaning (strike values are whole index points). -/
structure RawRow where
  trade_date : Int
  strike : Int
  cp : String
  oi : Int
deriving DecidableEq, Repr

/-- The groupby key (Date, Strike, CP). -/
def rkey (r : RawRow) : Int × Int × String := (r.trade_date, r.strike, r.cp)

/-- Strings compare equal iff their character lists do. -/
theorem string_eq_of_data {a b : String} (h : a.data = b.data) : a = b := by
  cases a
  cases b
  exact congrArg String.mk h

/-- The sort order `sort_values(["Strike", "CP", "Date"])` on keys:
lexicographic on (strike, cp, date).  The call/put strings are compared by
the lexicographic order on their character lists, which is exactly
`String.lt`, but stated on `List Char` so that it evaluates. -/
def keyLE (k1 k2 : Int × Int × String) : Prop :=
  k1.2.1 < k2.2.1
    ∨ (k1.2.1 = k2.2.1
      ∧ (k1.2.2.data < k2.2.2.data ∨ (k1.2.2 = k2.2.2 ∧ k1.1 ≤ k2.1)))

instance : DecidableRel keyLE := fun k1 k2 => by
  unfold keyLE
  infer_instance

instance : IsTotal (Int × Int × String) keyLE :=
  ⟨fun a b => by
    unfold keyLE
    rcases lt_trichotomy a.2.1 b.2.1 with h | h | h
    · exact Or.inl (Or.inl h)
    · rcases lt_trichotomy a.2.2.data b.2.2.data with h2 | h2 | h2
      · exact Or.inl (Or.inr ⟨h, Or.inl h2⟩)
      · have h2s : a.2.2 = b.2.2 := string_eq_of_data h2
        rcases le_total a.1 b.1 with h3 | h3
        · exact Or.inl (Or.inr ⟨h, Or.inr ⟨h2s, h3⟩⟩)
        · exact Or.inr (Or.inr ⟨h.symm, Or.inr ⟨h2s.symm, h3⟩⟩)
      · exact Or.inr (Or.inr ⟨h.symm, Or.inl h2⟩)
    · exact Or.inr (Or.inl h)⟩

instance : IsTrans (Int × Int × String) keyLE :=
  ⟨fun a b c hab hbc => by
    unfold keyLE at *
    obtain h1 | ⟨e1, h1⟩ := hab <;> obtain h2 | ⟨e2, h2⟩ := hbc
    · exact Or.inl (lt_trans h1 h2)
    · exact Or.inl (e2 ▸ h1)
    · exact Or.inl (e1 ▸ h2)
    · refine Or.inr ⟨e1.trans e2, ?_⟩
      obtain hc1 | ⟨f1, hd1⟩ := h1 <;> obtain hc2 | ⟨f2, hd2⟩ := h2
      · exact Or.inl (lt_trans hc1 hc2)
      · exact Or.inl (f2 ▸ hc1)
      · exact Or.inl (f1 ▸ hc2)
      · exact Or.inr ⟨f1.trans f2, le_trans hd1 hd2⟩⟩

instance : IsAntisymm (Int × Int × String) keyLE :=
  ⟨fun a b hab hba => by
    unfold keyLE at hab hba
    obtain h1 | ⟨e1, h1⟩ := hab <;> obtain h2 | ⟨e2, h2⟩ := hba
    · exact absurd (lt_trans h1 h2) (lt_irrefl _)
    · exact absurd (e2 ▸ h1) (lt_irrefl _)
    · exact absurd (e1 ▸ h2) (lt_irrefl _)
    · obtain hc1 | ⟨f1, hd1⟩ := h1 <;> obtain hc2 | ⟨f2, hd2⟩ := h2
      · exact absurd (lt_trans hc1 hc2) (lt_irrefl _)
      · exact absurd (f2 ▸ hc1) (lt_irrefl _)
      · exact absurd (f1 ▸ hc2) (lt_irrefl _)
      · exact Prod.ext (le_antisymm hd1 hd2) (Prod.ext e1 f1)⟩

/-- The distinct groupby keys, in first-occurrence order (the order is
irrelevant: the keys are then sorted by the strict total order `keyLE`). -/
def keys_of (raws : List RawRow) : List (Int × Int × String) :=
  (raws.map rkey).dedup

/-- `sort_values(["Strike", "CP", "Date"])` on the key list. -/
def sortKeys (ks : List (Int × Int × String)) : List (Int × Int × String) :=
  List.insertionSort keyLE ks

/-- `groupby([...]).agg({"OI": "sum"})` for one key. -/
def sumOI (raws : List RawRow) (k : Int × Int × String) : Int :=
  ((raws.filter fun r => decide (rkey r = k)).map RawRow.oi).sum

/-- The grouped-and-sorted aggregate: one row per key, OI summed. -/
def aggregate (raws : List RawRow) : List RawRow :=
  (sortKeys (keys_of raws)).map fun k => ⟨k.1, k.2.1, k.2.2, sumOI raws k⟩

/-- An aggregated row together with its shifted previous-session OI
values (`OI_prev1 = shift(1).fillna(0)`, `OI_prev2 = shift(2).fillna(0)`
within the row's (strike, cp) group). -/
structure DRow where
  row : RawRow
  OI_prev1 : Int
  OI_prev2 : Int
deriving DecidableEq, Repr

/-- Same (strike, call/put) contract. -/
def sameContract (a b : RawRow) : Bool := a.strike == b.strike && a.cp == b.cp

/-- The OI values of the same-contract rows already seen, in list order. -/
def prevOIs (seen : List RawRow) (r : RawRow) : List Int :=
  (seen.filter fun p => sameContract p r).map RawRow.oi

/-- Attach `shift(1)` and `shift(2)` (with `fillna(0)`) to one row, given
the rows above it. -/
def mkD (seen : List RawRow) (r : RawRow) : DRow :=
  ⟨r, (prevOIs seen r).getLast?.getD 0, (prevOIs seen r).dropLast.getLast?.getD 0⟩

/-- The grouped `shift` pass over the sorted aggregate. -/
def withDeltas (seen : List RawRow) : List RawRow → List DRow
  | [] => []
  | r :: rest => mkD seen r :: withDeltas (seen ++ [r]) rest

/-- The whole `load_and_process` aggregation: group, sort, shift. -/
def pipeline (raws : List RawRow) : List DRow := withDeltas [] (aggregate raws)

/-- `delta_1 = OI - OI_prev1`. -/
def delta_1 (d : DRow) : Int := d.row.oi - d.OI_prev1

/-- `delta_2 = OI - OI_prev2`. -/
def delta_2 (d : DRow) : Int := d.row.oi - d.OI_prev2

theorem sameContract_eq {a b : RawRow} (h : sameContract a b = true) :
    a.strike = b.strike ∧ a.cp = b.cp := by
  simpa [sameContract] using h

theorem date_lt_of_keyLE {x y : RawRow} (h : keyLE (rkey x) (rkey y))
    (hs : x.strike = y.strike) (hc : x.cp = y.cp) (hne : rkey x ≠ rkey y) :
    x.trade_date < y.trade_date := by
  unfold keyLE rkey at h
  dsimp only at h
  obtain h1 | ⟨e1, h2⟩ := h
  · rw [hs] at h1
    exact absurd h1 (lt_irrefl _)
  · obtain hc1 | ⟨f1, hd⟩ := h2
    · rw [hc] at hc1
      exact absurd hc1 (lt_irrefl _)
    · rcases lt_or_eq_of_le hd with hlt | heq
      · exact hlt
      · exact absurd (by unfold rkey; rw [heq, hs, hc]) hne

theorem withDeltas_map_row :
    ∀ (l seen : List RawRow), (withDeltas seen l).map DRow.row = l := by
  intro l
  induction l with
  | nil => intro _; rfl
  | cons r t ih =>
    intro seen
    unfold withDeltas
    rw [List.map_cons, ih]
    rfl

theorem withDeltas_mem :
    ∀ (l seen : List RawRow) (d : DRow), d ∈ withDeltas seen l →
      ∃ l1 l2, l = l1 ++ d.row :: l2 ∧ d = mkD (seen ++ l1) d.row := by
  intro l
  induction l with
  | nil => intro seen d hd; simp [withDeltas] at hd
  | cons r t ih =>
    intro seen d hd
    unfold withDeltas at hd
    rcases List.mem_cons.mp hd with rfl | hd2
    · exact ⟨[], t, rfl, by rw [List.append_nil]; rfl⟩
    · obtain ⟨l1, l2, hl, hm⟩ := ih (seen ++ [r]) d hd2
      refine ⟨r :: l1, l2, by rw [hl]; rfl, ?_⟩
      rw [List.append_cons seen r l1]
      exact hm

theorem mem_pipeline_of_mem_aggregate {raws : List RawRow} {x : RawRow}
    (hx : x ∈ aggregate raws) : ∃ q ∈ pipeline raws, q.row = x := by
  have hmap := withDeltas_map_row (aggregate raws) []
  rw [← hmap] at hx
  obtain ⟨q, hq, hqx⟩ := List.mem_map.mp hx
  exact ⟨q, hq, hqx⟩

theorem row_mem_aggregate {raws : List RawRow} {d : DRow}
    (hd : d ∈ pipeline raws) : d.row ∈ aggregate raws := by
  have hmap := withDeltas_map_row (aggregate raws) []
  rw [← hmap]
  exact List.mem_map_of_mem DRow.row hd

theorem aggregate_map_rkey (raws : List RawRow) :
    (aggregate raws).map rkey = sortKeys (keys_of raws) := by
  unfold aggregate
  rw [List.map_map]
  have hid : (rkey ∘ fun k : Int × Int × String =>
      (⟨k.1, k.2.1, k.2.2, sumOI raws k⟩ : RawRow)) = id :=
    funext fun k => rfl
  rw [hid, List.map_id]

theorem aggregate_keys_nodup (raws : List RawRow) :
    (aggregate raws).Pairwise fun a b => rkey a ≠ rkey b := by
  rw [← List.pairwise_map]
  rw [aggregate_map_rkey]
  have : (sortKeys (keys_of raws)).Nodup :=
    ((List.perm_insertionSort keyLE (keys_of raws)).nodup_iff).mpr
      (List.nodup_dedup (raws.map rkey))
  exact this

theorem aggregate_sorted (raws : List RawRow) :
    (aggregate raws).Pairwise fun a b => keyLE (rkey a) (rkey b) := by
  rw [← List.pairwise_map]
  rw [aggregate_map_rkey]
  exact List.sorted_insertionSort keyLE (keys_of raws)

theorem getLast_of_max :
    ∀ (F : List RawRow), F.Pairwise (fun a b => a.trade_date < b.trade_date) →
      ∀ x ∈ F, (∀ y ∈ F, y.trade_date ≤ x.trade_date) → F.getLast? = some x := by
  intro F
  induction F with
  | nil => intro _ x hx; simp at hx
  | cons a t ih =>
    intro hp x hx hmax
    cases t with
    | nil =>
      rw [List.mem_singleton.mp hx]
      rfl
    | cons b u =>
      rw [List.getLast?_cons_cons]
      rcases List.mem_cons.mp hx with rfl | hx2
      · exfalso
        have hab : x.trade_date < b.trade_date :=
          List.rel_of_pairwise_cons hp (List.mem_cons_self b u)
        have hba : b.trade_date ≤ x.trade_date :=
          hmax b (List.mem_cons_of_mem _ (List.mem_cons_self b u))
        exact absurd hab (not_lt.mpr hba)
      · exact ih hp.of_cons x hx2
          fun y hy => hmax y (List.mem_cons_of_mem _ hy)

theorem pipeline_anatomy (raws : List RawRow) (dr : DRow) (hdr : dr ∈ pipeline raws) :
    ∃ L1 L2 : List RawRow,
      aggregate raws = L1 ++ dr.row :: L2
      ∧ dr = mkD L1 dr.row
      ∧ (∀ x ∈ L1, sameContract x dr.row = true → x.trade_date < dr.row.trade_date)
      ∧ (∀ x ∈ L2, sameContract x dr.row = true → dr.row.trade_date < x.trade_date)
      ∧ (L1.filter fun p => sameContract p dr.row).Pairwise
          (fun a b => a.trade_date < b.trade_date) := by
  obtain ⟨L1, L2, hA, hm⟩ := withDeltas_mem (aggregate raws) [] dr hdr
  rw [List.nil_append] at hm
  have hPA : (aggregate raws).Pairwise
      (fun a b => keyLE (rkey a) (rkey b) ∧ rkey a ≠ rkey b) :=
    (aggregate_sorted raws).and (aggregate_keys_nodup raws)
  rw [hA] at hPA
  obtain ⟨p1, p2, pcross⟩ := List.pairwise_append.mp hPA
  refine ⟨L1, L2, hA, hm, ?_, ?_, ?_⟩
  · intro x hx hsc
    obtain ⟨hs, hc⟩ := sameContract_eq hsc
    have h := pcross x hx dr.row (List.mem_cons_self _ _)
    exact date_lt_of_keyLE h.1 hs hc h.2
  · intro x hx hsc
    obtain ⟨hs, hc⟩ := sameContract_eq hsc
    have h := List.rel_of_pairwise_cons p2 hx
    exact date_lt_of_keyLE h.1 hs.symm hc.symm h.2
  · have pF : (L1.filter fun p => sameContract p dr.row).Pairwise
        (fun a b => keyLE (rkey a) (rkey b) ∧ rkey a ≠ rkey b) :=
      p1.filter _
    refine pF.imp_of_mem ?_
    intro a b ha hb hR
    have hsa := (List.mem_filter.mp ha).2
    have hsb := (List.mem_filter.mp hb).2
    obtain ⟨hsa1, hsa2⟩ := sameContract_eq hsa
    obtain ⟨hsb1, hsb2⟩ := sameContract_eq hsb
    exact date_lt_of_keyLE hR.1 (hsa1.trans hsb1.symm) (hsa2.trans hsb2.symm) hR.2

theorem aggregate_perm_eq {raws raws' : List RawRow} (hp : raws.Perm raws') :
    aggregate raws = aggregate raws' := by
  unfold aggregate sortKeys
  have hkeys : List.insertionSort keyLE (keys_of raws)
      = List.insertionSort keyLE (keys_of raws') := by
    apply List.eq_of_perm_of_sorted (r := keyLE)
    · exact (List.perm_insertionSort keyLE _).trans
        (((hp.map rkey).dedup).trans (List.perm_insertionSort keyLE _).symm)
    · exact List.sorted_insertionSort keyLE _
    · exact List.sorted_insertionSort keyLE _
  rw [hkeys]
  apply List.map_congr_left
  intro k _
  have hsum : sumOI raws k = sumOI raws' k :=
    ((hp.filter _).map RawRow.oi).sum_eq
  rw [hsum]

/-- Claim C1: the aggregation result does not depend on the input row
order, and for every row of the pipeline output whose contract has an
immediately preceding session (same strike and call/put, earlier date, no
session of that contract strictly between), `delta_1` equals the row's
summed OI minus that preceding session's summed OI. -/
theorem claim_c1_session_delta :
    (∀ raws raws' : List RawRow, raws.Perm raws' → pipeline raws = pipeline raws')
    ∧ (∀ (raws : List RawRow) (dr dp : DRow),
        dr ∈ pipeline raws → dp ∈ pipeline raws →
        dp.row.strike = dr.row.strike → dp.row.cp = dr.row.cp →
        dp.row.trade_date < dr.row.trade_date →
        (∀ q ∈ pipeline raws, q.row.strike = dr.row.strike → q.row.cp = dr.row.cp →
          ¬(dp.row.trade_date < q.row.trade_date
            ∧ q.row.trade_date < dr.row.trade_date)) →
        delta_1 dr = dr.row.oi - dp.row.oi) := by
  constructor
  · intro raws raws' hp
    unfold pipeline
    rw [aggregate_perm_eq hp]
  · intro raws dr dp hdr hdp hs hc hlt hno
    obtain ⟨L1, L2, hA, hm, hL1, hL2, hF⟩ := pipeline_anatomy raws dr hdr
    have hdpA : dp.row ∈ aggregate raws := row_mem_aggregate hdp
    rw [hA] at hdpA
    have hdpL1 : dp.row ∈ L1 := by
      rcases List.mem_append.mp hdpA with h | h
      · exact h
      · rcases List.mem_cons.mp h with heq | hL2mem
        · exfalso
          rw [heq] at hlt
          exact absurd hlt (lt_irrefl _)
        · exfalso
          have hgt := hL2 dp.row hL2mem (by simp [sameContract, hs, hc])
          exact absurd hlt (not_lt.mpr hgt.le)
    have hdpF : dp.row ∈ L1.filter fun p => sameContract p dr.row :=
      List.mem_filter.mpr ⟨hdpL1, by simp [sameContract, hs, hc]⟩
    have hmax : ∀ y ∈ L1.filter (fun p => sameContract p dr.row),
        y.trade_date ≤ dp.row.trade_date := by
      intro y hy
      have hyL1 := (List.mem_filter.mp hy).1
      have hysc := (List.mem_filter.mp hy).2
      obtain ⟨hys, hyc⟩ := sameContract_eq hysc
      have hylt : y.trade_date < dr.row.trade_date := hL1 y hyL1 hysc
      have hyA : y ∈ aggregate raws := by
        rw [hA]
        exact List.mem_append_left _ hyL1
      obtain ⟨q, hq, hqy⟩ := mem_pipeline_of_mem_aggregate hyA
      have hcontra := hno q hq (by rw [hqy]; exact hys) (by rw [hqy]; exact hyc)
      rw [hqy] at hcontra
      by_contra hgt
      push_neg at hgt
      exact hcontra ⟨hgt, hylt⟩
    have hlast : (L1.filter fun p => sameContract p dr.row).getLast? = some dp.row :=
      getLast_of_max _ hF dp.row hdpF hmax
    have hprev : dr.OI_prev1 = dp.row.oi := by
      rw [hm]
      show (prevOIs L1 dr.row).getLast?.getD 0 = dp.row.oi
      unfold prevOIs
      rw [List.getLast?_map, hlast]
      rfl
    unfold delta_1
    rw [hprev]

/-- Claim C1 witness: with interleaved contracts
(100, C) ↦ OI 4 then 10 and (200, P) ↦ OI 7, the (100, C) session of date
2 gets `delta_1 = 10 - 4`. -/
theorem claim_c1_witness :
    delta_1 ⟨⟨2, 100, "C", 10⟩, 4, 0⟩
      = (⟨⟨2, 100, "C", 10⟩, 4, 0⟩ : DRow).row.oi
        - (⟨⟨1, 100, "C", 4⟩, 0, 0⟩ : DRow).row.oi :=
  claim_c1_session_delta.2 [⟨2, 100, "C", 10⟩, ⟨1, 200, "P", 7⟩, ⟨1, 100, "C", 4⟩]
    ⟨⟨2, 100, "C", 10⟩, 4, 0⟩ ⟨⟨1, 100, "C", 4⟩, 0, 0⟩
    (by decide) (by decide) rfl rfl (by decide) (by decide)

/-- Claim C10: for the earliest recorded session of a contract, the
shifted previous-session values are filled with 0 (not dropped), so
`delta_1` and `delta_2` both equal that session's summed OI; and for any
row with at most one earlier session of its contract (its first two
sessions), `OI_prev2 = 0` and `delta_2` equals the row's OI. -/
theorem claim_c10_first_session : ∀ (raws : List RawRow) (dr : DRow),
    dr ∈ pipeline raws →
    ((∀ q ∈ pipeline raws, q.row.strike = dr.row.strike → q.row.cp = dr.row.cp →
        dr.row.trade_date ≤ q.row.trade_date) →
      dr.OI_prev1 = 0 ∧ dr.OI_prev2 = 0
        ∧ delta_1 dr = dr.row.oi ∧ delta_2 dr = dr.row.oi)
    ∧ ((∀ q q' : DRow, q ∈ pipeline raws → q' ∈ pipeline raws →
        q.row.strike = dr.row.strike → q.row.cp = dr.row.cp →
        q.row.trade_date < dr.row.trade_date →
        q'.row.strike = dr.row.strike → q'.row.cp = dr.row.cp →
        q'.row.trade_date < dr.row.trade_date → q = q') →
      dr.OI_prev2 = 0 ∧ delta_2 dr = dr.row.oi) := by
  intro raws dr hdr
  obtain ⟨L1, L2, hA, hm, hL1, hL2, hF⟩ := pipeline_anatomy raws dr hdr
  have hlift : ∀ x ∈ L1.filter (fun p => sameContract p dr.row),
      ∃ q ∈ pipeline raws, q.row = x
        ∧ q.row.strike = dr.row.strike ∧ q.row.cp = dr.row.cp
        ∧ q.row.trade_date < dr.row.trade_date := by
    intro x hx
    have hxL1 := (List.mem_filter.mp hx).1
    have hxsc := (List.mem_filter.mp hx).2
    obtain ⟨hxs, hxc⟩ := sameContract_eq hxsc
    have hxA : x ∈ aggregate raws := by
      rw [hA]
      exact List.mem_append_left _ hxL1
    obtain ⟨q, hq, hqx⟩ := mem_pipeline_of_mem_aggregate hxA
    exact ⟨q, hq, hqx, by rw [hqx]; exact hxs, by rw [hqx]; exact hxc,
      by rw [hqx]; exact hL1 x hxL1 hxsc⟩
  constructor
  · intro hmin
    have hFnil : L1.filter (fun p => sameContract p dr.row) = [] := by
      rw [List.eq_nil_iff_forall_not_mem]
      intro x hx
      obtain ⟨q, hq, hqx, hqs, hqc, hqlt⟩ := hlift x hx
      exact absurd hqlt (not_lt.mpr (hmin q hq hqs hqc))
    have h1 : dr.OI_prev1 = 0 := by
      rw [hm]
      show (prevOIs L1 dr.row).getLast?.getD 0 = 0
      unfold prevOIs
      rw [hFnil]
      rfl
    have h2 : dr.OI_prev2 = 0 := by
      rw [hm]
      show (prevOIs L1 dr.row).dropLast.getLast?.getD 0 = 0
      unfold prevOIs
      rw [hFnil]
      rfl
    exact ⟨h1, h2, by unfold delta_1; rw [h1]; omega, by unfold delta_2; rw [h2]; omega⟩
  · intro huniq
    have hFshort : ∀ (x : RawRow) (t : List RawRow),
        L1.filter (fun p => sameContract p dr.row) = x :: t → t = [] := by
      intro x t hFx
      cases t with
      | nil => rfl
      | cons y u =>
        exfalso
        have hxF : x ∈ L1.filter (fun p => sameContract p dr.row) := by
          rw [hFx]
          exact List.mem_cons_self _ _
        have hyF : y ∈ L1.filter (fun p => sameContract p dr.row) := by
          rw [hFx]
          exact List.mem_cons_of_mem _ (List.mem_cons_self _ _)
        have hxy : x.trade_date < y.trade_date := by
          rw [hFx] at hF
          exact List.rel_of_pairwise_cons hF (List.mem_cons_self _ _)
        obtain ⟨qx, hqx, hqxr, hqxs, hqxc, hqxlt⟩ := hlift x hxF
        obtain ⟨qy, hqy, hqyr, hqys, hqyc, hqylt⟩ := hlift y hyF
        have heq : qx = qy := huniq qx qy hqx hqy hqxs hqxc hqxlt hqys hqyc hqylt
        rw [heq, hqyr] at hqxr
        rw [hqxr] at hxy
        exact absurd hxy (lt_irrefl _)
    have h2 : dr.OI_prev2 = 0 := by
      rw [hm]
      show (prevOIs L1 dr.row).dropLast.getLast?.getD 0 = 0
      unfold prevOIs
      cases hFc : L1.filter (fun p => sameContract p dr.row) with
      | nil => rfl
      | cons x t =>
        rw [hFshort x t hFc]
        rfl
    exact ⟨h2, by unfold delta_2; rw [h2]; omega⟩

/-- Claim C10 witness: for a contract recorded on dates 1 and 2, the date-1
row (its earliest session) has both previous-session values filled with 0
and both deltas equal to its own OI. -/
theorem claim_c10_witness :
    (⟨⟨1, 100, "C", 4⟩, 0, 0⟩ : DRow).OI_prev1 = 0
    ∧ (⟨⟨1, 100, "C", 4⟩, 0, 0⟩ : DRow).OI_prev2 = 0
    ∧ delta_1 ⟨⟨1, 100, "C", 4⟩, 0, 0⟩ = (⟨⟨1, 100, "C", 4⟩, 0, 0⟩ : DRow).row.oi
    ∧ delta_2 ⟨⟨1, 100, "C", 4⟩, 0, 0⟩ = (⟨⟨1, 100, "C", 4⟩, 0, 0⟩ : DRow).row.oi :=
  (claim_c10_first_session [⟨1, 100, "C", 4⟩, ⟨2, 100, "C", 10⟩]
    ⟨⟨1, 100, "C", 4⟩, 0, 0⟩ (by decide)).1 (by decide)

end TXOProof
